import Mathlib

/-!
# Verification of the cfg-manager path-addressed nested-map engine

A shallow embedding of the `pkg/config` package of
`Universal-Cube/cfg-manager` (Go).  Go's dynamically typed configuration
values (`interface{}`) are modelled by the closed inductive type `GoVal`;
Go maps (`map[string]interface{}` and `map[interface{}]interface{}`) are
modelled by association lists whose iteration order is the list order
(Go's map iteration order is unspecified; the list order is one admissible
order, and every theorem that depends on iteration order says so).
Mutation is modelled by explicit state passing: an operation that mutates
the manager in Go returns the new manager here.  Fallible operations
return `Except GoErr`.

Floating-point values (`float64` / `float32`) are modelled by rationals:
no claim under verification performs float arithmetic; the only operations
used are equality/zero tests, which ℚ models exactly.  The `%v` rendering
of floating-point and composite values by `fmt.Sprintf` is abstracted by a
definite total function (`goVString`); no claim depends on its output.
-/

namespace CfgMgr

/-- The universe of Go `interface{}` values that can live in a configuration
tree.  Constructors mirror the dynamic types the package's type switches
discriminate on: `string`, `bool`, `int`, `int64`, `int32`, `float64`,
`float32`, `[]byte`, `[]string`, `[]interface{}`, `map[string]interface{}`
and `map[interface{}]interface{}` (the "foreign-keyed" mapping produced by
permissive YAML decoding), plus `nil`. -/
inductive GoVal where
  | vNull : GoVal
  | vStr : String → GoVal
  | vBool : Bool → GoVal
  | vInt : Int → GoVal
  | vInt64 : Int → GoVal
  | vInt32 : Int → GoVal
  | vFloat64 : Rat → GoVal
  | vFloat32 : Rat → GoVal
  | vBytes : List Nat → GoVal
  | vStrSlice : List String → GoVal
  | vArr : List GoVal → GoVal
  | vStrMap : List (String × GoVal) → GoVal
  | vIfaceMap : List (GoVal × GoVal) → GoVal

/-- A Go `map[string]interface{}`, as an association list. -/
abbrev GoMap := List (String × GoVal)

/-- `v, exists := m[k]` on a Go string-keyed map. -/
def lookupGo : GoMap → String → Option GoVal
  | [], _ => none
  | (k', v) :: rest, k => if k' = k then some v else lookupGo rest k

/-- `m[k] = v` on a Go string-keyed map: replace the entry if the key is
present, append otherwise. -/
def insertGo : GoMap → String → GoVal → GoMap
  | [], k, v => [(k, v)]
  | (k', v') :: rest, k, v =>
      if k' = k then (k, v) :: rest else (k', v') :: insertGo rest k v

/-- `delete(m, k)` on a Go string-keyed map (a Go map holds each key at
most once; on such lists this removes exactly that entry). -/
def eraseGo : GoMap → String → GoMap
  | [], _ => []
  | (k', v') :: rest, k =>
      if k' = k then eraseGo rest k else (k', v') :: eraseGo rest k

@[simp] theorem lookupGo_nil (k : String) : lookupGo [] k = none := rfl

@[simp] theorem lookupGo_cons (k' k : String) (v : GoVal) (rest : GoMap) :
    lookupGo ((k', v) :: rest) k
      = if k' = k then some v else lookupGo rest k := rfl

theorem lookupGo_insert_self (m : GoMap) (k : String) (v : GoVal) :
    lookupGo (insertGo m k v) k = some v := by
  induction m with
  | nil => simp [insertGo, lookupGo]
  | cons p rest ih =>
      obtain ⟨k', v'⟩ := p
      by_cases h : k' = k <;> simp [insertGo, lookupGo, h, ih]

theorem lookupGo_insert_ne (m : GoMap) (k k' : String) (v : GoVal)
    (h : k' ≠ k) : lookupGo (insertGo m k v) k' = lookupGo m k' := by
  have h' : ¬(k = k') := fun hh => h hh.symm
  induction m with
  | nil => simp [insertGo, lookupGo, h']
  | cons p rest ih =>
      obtain ⟨k₀, v₀⟩ := p
      by_cases h0 : k₀ = k
      · subst h0
        simp [insertGo, lookupGo, h']
      · simp [insertGo, lookupGo, h0, ih]

theorem lookupGo_erase_self (m : GoMap) (k : String) :
    lookupGo (eraseGo m k) k = none := by
  induction m with
  | nil => simp [eraseGo]
  | cons p rest ih =>
      obtain ⟨k', v'⟩ := p
      by_cases h : k' = k <;> simp [eraseGo, lookupGo, h, ih]

theorem lookupGo_erase_ne (m : GoMap) (k k' : String) (h : k' ≠ k) :
    lookupGo (eraseGo m k) k' = lookupGo m k' := by
  have h' : ¬(k = k') := fun hh => h hh.symm
  induction m with
  | nil => simp [eraseGo]
  | cons p rest ih =>
      obtain ⟨k₀, v₀⟩ := p
      by_cases h0 : k₀ = k
      · subst h0
        simp [eraseGo, lookupGo, h', ih]
      · simp [eraseGo, lookupGo, h0, ih]

/-- `strings.Split(s, ".")` for the one-character separator used by the
package: the dot-separated segments of a path, empty fields preserved;
the empty string splits to `[""]`, so the result is never empty. -/
def splitDotCh : List Char → List (List Char)
  | [] => [[]]
  | c :: rest =>
      if c = '.' then [] :: splitDotCh rest
      else
        match splitDotCh rest with
        | [] => [[c]]
        | x :: xs => (c :: x) :: xs

/-- `strings.Split(key, ".")` as used by `getNestedMap` and `Manager.Set`. -/
def splitDot (s : String) : List String :=
  (splitDotCh s.data).map (fun cs => String.mk cs)

theorem splitDotCh_ne_nil (cs : List Char) : splitDotCh cs ≠ [] := by
  induction cs with
  | nil => simp [splitDotCh]
  | cons c rest ih =>
      by_cases h : c = '.'
      · simp [splitDotCh, h]
      · simp only [splitDotCh, h, if_false]
        cases hr : splitDotCh rest with
        | nil => simp
        | cons x xs => simp

theorem splitDot_ne_nil (s : String) : splitDot s ≠ [] := by
  simp [splitDot, splitDotCh_ne_nil]

/-- Errors produced by the engine.  The Go code wraps low-level errors in
`ConfigError{Operation, Key, Err}`; here each error kind carries the
offending key (or message) directly and the wrapping layer is flattened,
which preserves exactly the distinctions the code itself ever inspects. -/
inductive GoErr where
  | notFound (key : String)
  | notAMapping (key : String)
  | keyNotString (key : String)
  | invalidPath
  | emptyKey
  | conv (key target : String)
  | parse (msg : String)
  | badFormat (tag : String)
deriving DecidableEq, Repr

/-- ASCII lowering of one character (`'A'..'Z'` mapped to `'a'..'z'`). -/
def lowerChar (c : Char) : Char :=
  if 'A' ≤ c ∧ c ≤ 'Z' then Char.ofNat (c.toNat + 32) else c

/-- `strings.ToLower`, modelled on the ASCII range.  Go lowers full
Unicode; the only non-ASCII characters that lower into ASCII (e.g. the
Kelvin sign to `k`) cannot turn any string into one of the boolean word
constants of `GetBool`, and every key in a concrete claim below is ASCII,
so the model is exact where it is used. -/
def lowerStr (s : String) : String := String.mk (s.data.map lowerChar)

/-- `strings.EqualFold` as used for case-insensitive key matching,
modelled by equality of ASCII-lowercased strings (see `lowerStr`). -/
def eqFoldGo (a b : String) : Bool := lowerStr a == lowerStr b

/-- `for k := range m { if strings.EqualFold(k, key) { ...; break } }`:
the first key of `m` (in iteration order, here list order) that
case-insensitively equals `key`. -/
def foldMatch : GoMap → String → Option String
  | [], _ => none
  | (k', _) :: rest, k => if eqFoldGo k' k then some k' else foldMatch rest k

/-- The case-insensitive substitution of a final segment performed by
`getNestedMap` (after its walk) and again by `Get`/`Delete`: in
case-sensitive mode the key is unchanged; otherwise the first
case-insensitive match is substituted, or the key kept when none matches. -/
def refoldKey (m : GoMap) (k : String) (cs : Bool) : String :=
  if cs then k else (foldMatch m k).getD k

/-- The conversion of a `map[interface{}]interface{}` performed inside
`getNestedMap`'s walk: each key must already be a `string` (a non-string
key aborts with an error — no `%v` stringification here, unlike
`Manager.Set`); entries are inserted in iteration order. -/
def strictConvAux (acc : GoMap) : List (GoVal × GoVal) → Option GoMap
  | [] => some acc
  | (k, v) :: rest =>
      match k with
      | .vStr s => strictConvAux (insertGo acc s v) rest
      | _ => none

/-- `getNestedMap`'s in-walk conversion of a foreign-keyed mapping; `none`
exactly when some key is not (dynamically) a string. -/
def strictConv (l : List (GoVal × GoVal)) : Option GoMap := strictConvAux [] l

/-- The walk of `getNestedMap` over all path segments but the last.
At each segment: in case-insensitive mode the first case-insensitively
matching key is substituted (error `notFound` when none); the value must be
a string-keyed mapping, or a foreign-keyed mapping whose keys are all
strings (converted by `strictConv`); anything else is an error. -/
def walkSegs : GoMap → List String → Bool → Except GoErr GoMap
  | current, [], _ => .ok current
  | current, k :: rest, cs =>
      match (if cs then some k else foldMatch current k) with
      | none => .error (.notFound k)
      | some key =>
        match lookupGo current key with
        | none => .error (.notFound key)
        | some (.vStrMap nested) => walkSegs nested rest cs
        | some (.vIfaceMap l) =>
            match strictConv l with
            | some nested => walkSegs nested rest cs
            | none => .error (.keyNotString key)
        | some _ => .error (.notAMapping key)

/-- `getNestedMap(data, path, caseSensitive)` after splitting: a
single-segment path returns the root and that segment untouched; otherwise
the walk runs over all but the last segment and the last segment is
case-folded against the resulting parent. -/
def getNestedSegs (data : GoMap) (keys : List String) (cs : Bool) :
    Except GoErr (GoMap × String) :=
  match keys with
  | [] => .error .invalidPath
  | [k] => .ok (data, k)
  | k1 :: k2 :: rest =>
      match walkSegs data ((k1 :: k2 :: rest).dropLast) cs with
      | .error e => .error e
      | .ok cur => .ok (cur, refoldKey cur ((k1 :: k2 :: rest).getLastD "") cs)

/-- `getNestedMap` of `pkg/config/utils.go` (the documented variant, whose
final `return current, lastKey, nil` is the one consistent with the
package's own tests; an older sibling copy of the file ends in
`return nil, "", nil`). -/
def getNestedMapGo (data : GoMap) (path : String) (cs : Bool) :
    Except GoErr (GoMap × String) :=
  getNestedSegs data (splitDot path) cs

/-- The configuration store.  `filePath` never influences the operations
under verification and is omitted.  `fileFormat` models the Go `Format`
string type. -/
structure Manager where
  data : GoMap
  fileFormat : String
  caseSensitive : Bool

/-- `config.New()`: empty tree, case-sensitive by default. -/
def newManager : Manager := ⟨[], "", true⟩

/-- `Manager.Get`: an empty key returns the whole tree; otherwise the path
is resolved by `getNestedMap`, the final segment is case-folded once more
against the parent, and the value looked up (error when absent). -/
def Manager.Get (m : Manager) (key : String) : Except GoErr GoVal :=
  if key = "" then .ok (.vStrMap m.data)
  else
    match getNestedMapGo m.data key m.caseSensitive with
    | .error e => .error e
    | .ok (parentMap, lastKey) =>
        let lk := refoldKey parentMap lastKey m.caseSensitive
        match lookupGo parentMap lk with
        | some v => .ok v
        | none => .error (.notFound key)

/-- `Manager.Has`: true exactly when `Get` returns no error. -/
def Manager.Has (m : Manager) (key : String) : Bool :=
  match m.Get key with
  | .ok _ => true
  | .error _ => false

/-- `Manager.GetBool`: type switch on the resolved value in source order —
`bool` identity; `int` and `float64` tested against zero; strings lowered
(`strings.ToLower`; ASCII-exact here, and no non-ASCII character folds into
the ten recognized constants in Go either) and matched against the
true/false word sets; every other dynamic type is a conversion error. -/
def Manager.GetBool (m : Manager) (key : String) : Except GoErr Bool :=
  match m.Get key with
  | .error e => .error e
  | .ok v =>
    match v with
    | .vBool b => .ok b
    | .vInt n => .ok (decide (n ≠ 0))
    | .vFloat64 q => .ok (decide (q ≠ 0))
    | .vStr s =>
        let lower := lowerStr s
        if lower = "true" ∨ lower = "1" ∨ lower = "yes" ∨ lower = "y" ∨ lower = "on" then
          .ok true
        else if lower = "false" ∨ lower = "0" ∨ lower = "no" ∨ lower = "n" ∨ lower = "off" then
          .ok false
        else .error (.conv key "bool")
    | _ => .error (.conv key "bool")

/-- `fmt.Sprintf("%v", x)` for the values that can serve as map keys.
Exact for `nil`, strings, booleans and the integer kinds; the rendering of
floating-point and composite values is a definite abstraction (no claim
under verification depends on those strings, only on the function being
total and deterministic). -/
def goVString : GoVal → String
  | .vNull => "<nil>"
  | .vStr s => s
  | .vBool b => if b then "true" else "false"
  | .vInt n => toString n
  | .vInt64 n => toString n
  | .vInt32 n => toString n
  | .vFloat64 q => toString q
  | .vFloat32 q => toString q
  | .vBytes bs => toString bs
  | .vStrSlice l => toString l
  | .vArr _ => "[...]"
  | .vStrMap _ => "map[...]"
  | .vIfaceMap _ => "map[...]"

/-- `Manager.Set`'s in-walk conversion of a `map[interface{}]interface{}`:
string keys are used as-is, any other key is `%v`-stringified (contrast
with `strictConv`, which errors); entries inserted in iteration order. -/
def ifaceToStrV (l : List (GoVal × GoVal)) : GoMap :=
  l.foldl
    (fun acc p =>
      insertGo acc (match p.1 with | .vStr s => s | k => goVString k) p.2) []

/-- The segment walk of `Manager.Set`: all but the last segment descend,
creating an empty map for a missing key, reusing a string-keyed map,
converting a foreign-keyed map via `%v` stringification, and overwriting
any other value with a fresh empty map; the last segment is assigned
unconditionally. -/
def setSegs : GoMap → List String → GoVal → GoMap
  | current, [], _ => current
  | current, [lastKey], v => insertGo current lastKey v
  | current, k :: k2 :: rest, v =>
      match lookupGo current k with
      | none => insertGo current k (.vStrMap (setSegs [] (k2 :: rest) v))
      | some (.vStrMap inner) =>
          insertGo current k (.vStrMap (setSegs inner (k2 :: rest) v))
      | some (.vIfaceMap l) =>
          insertGo current k (.vStrMap (setSegs (ifaceToStrV l) (k2 :: rest) v))
      | some _ => insertGo current k (.vStrMap (setSegs [] (k2 :: rest) v))

/-- `Manager.Set`: empty key is rejected; otherwise the tree is updated
along the dot-split path (always case-sensitively — `Set` never consults
`caseSensitive`). -/
def Manager.Set (m : Manager) (key : String) (v : GoVal) :
    Except GoErr Manager :=
  if key = "" then .error .emptyKey
  else .ok { m with data := setSegs m.data (splitDot key) v }

/-- The value-aliasing effect of a mutation performed below a foreign-keyed
mapping that `getNestedMap` converted in flight: the conversion is a fresh
one-level copy, so an entry deleted *at* the conversion's own level is lost
(absent from `conv`, the original value is kept), while an entry whose
value was replaced deeper down is shared with the tree and the replacement
shows through. -/
def writeBackIface (l : List (GoVal × GoVal)) (conv : GoMap) :
    List (GoVal × GoVal) :=
  l.map (fun p =>
    match p.1 with
    | .vStr s => (p.1, (lookupGo conv s).getD p.2)
    | _ => p)

/-- The combined walk of `Manager.Delete`: `getNestedMap`'s traversal fused
with the final existence check and `delete(parentMap, lastKey)`.  When the
walk passes through a foreign-keyed mapping, `getNestedMap` hands `Delete`
a fresh converted copy, so the deletion mutates that copy: an erasure at
the copy's own level does not reach the tree (`writeBackIface` keeps the
original entry), while replacements below shared submaps do.  Go refolds
the final key once in `getNestedMap` (multi-segment paths) and once more in
`Delete`; refolding is idempotent (a substituted key is its own first
case-insensitive match), so a single `refoldKey` is applied here. -/
def delWalk : GoMap → List String → Bool → Except GoErr GoMap
  | _, [], _ => .error .invalidPath
  | current, [lastKey], cs =>
      let lk := refoldKey current lastKey cs
      match lookupGo current lk with
      | none => .error (.notFound lastKey)
      | some _ => .ok (eraseGo current lk)
  | current, k :: k2 :: rest, cs =>
      match (if cs then some k else foldMatch current k) with
      | none => .error (.notFound k)
      | some key =>
        match lookupGo current key with
        | none => .error (.notFound key)
        | some (.vStrMap inner) =>
            match delWalk inner (k2 :: rest) cs with
            | .error e => .error e
            | .ok inner' => .ok (insertGo current key (.vStrMap inner'))
        | some (.vIfaceMap l) =>
            match strictConv l with
            | none => .error (.keyNotString key)
            | some conv =>
                match delWalk conv (k2 :: rest) cs with
                | .error e => .error e
                | .ok conv' =>
                    .ok (insertGo current key
                          (.vIfaceMap (writeBackIface l conv')))
        | some _ => .error (.notAMapping key)

/-- `Manager.Delete`: empty key rejected; otherwise resolve the parent
(respecting case sensitivity), fail `notFound` when the final key is
absent there, remove it otherwise. -/
def Manager.Delete (m : Manager) (key : String) : Except GoErr Manager :=
  if key = "" then .error .emptyKey
  else
    match delWalk m.data (splitDot key) m.caseSensitive with
    | .error e => .error e
    | .ok d => .ok { m with data := d }

/-- Sequential insertion of entries into a map: `for k, v := range src {
dst[k] = v }`. -/
def insFold (acc : GoMap) : GoMap → GoMap
  | [] => acc
  | (k, v) :: rest => insFold (insertGo acc k v) rest

/-- One top-level key of `Manager.MergeMap`: when the existing value and
the incoming value are both string-keyed mappings, the incoming submap's
entries overwrite or add into the existing submap (one level deep, no
recursion); otherwise the incoming value replaces or adds wholesale. -/
def mergeStep (acc : GoMap) (k : String) (v : GoVal) : GoMap :=
  match lookupGo acc k, v with
  | some (.vStrMap ea), .vStrMap nb => insertGo acc k (.vStrMap (insFold ea nb))
  | _, _ => insertGo acc k v

/-- The tree produced by `Manager.MergeMap(data)`. -/
def mergeData (a b : GoMap) : GoMap :=
  b.foldl (fun acc p => mergeStep acc p.1 p.2) a

/-- `Manager.MergeMap`. -/
def Manager.MergeMap (m : Manager) (b : GoMap) : Manager :=
  { m with data := mergeData m.data b }

/-- The key stringification of `transformMapKeys` (the documented variant):
strings as-is, the integer kinds via `%d`, floats via `%g`, booleans via
`%t`, everything else via `%v`. -/
def tmkKey : GoVal → String
  | .vStr s => s
  | .vInt n => toString n
  | .vInt64 n => toString n
  | .vInt32 n => toString n
  | .vFloat64 q => goVString (.vFloat64 q)
  | .vFloat32 q => goVString (.vFloat32 q)
  | .vBool b => if b then "true" else "false"
  | v => goVString v

mutual

/-- `transformMapKeys` (`pkg/config/utils.go`): recursively converts every
mapping node to a string-keyed mapping — foreign keys stringified via
`tmkKey`, values transformed recursively, entries inserted in iteration
order; string-keyed mappings are rebuilt with values transformed;
sequences are rebuilt element-wise (order preserved); `nil` and every
scalar are returned unchanged.  A total function by construction. -/
def transformMapKeys : GoVal → GoVal
  | .vIfaceMap l => .vStrMap (insFold [] (tmkPairs l))
  | .vStrMap l => .vStrMap (insFold [] (tmkSPairs l))
  | .vArr l => .vArr (tmkList l)
  | v => v

/-- The entry transformation of `transformMapKeys` on a foreign-keyed
mapping, in iteration order. -/
def tmkPairs : List (GoVal × GoVal) → GoMap
  | [] => []
  | (k, v) :: rest => (tmkKey k, transformMapKeys v) :: tmkPairs rest

/-- The entry transformation of `transformMapKeys` on a string-keyed
mapping. -/
def tmkSPairs : GoMap → GoMap
  | [] => []
  | (k, v) :: rest => (k, transformMapKeys v) :: tmkSPairs rest

/-- The element-wise transformation of `transformMapKeys` on a sequence. -/
def tmkList : List GoVal → List GoVal
  | [] => []
  | v :: rest => transformMapKeys v :: tmkList rest

end

/-- `Manager.Load`.  The format decoders are external collaborators: the
byte buffer is abstracted by what each decoder yields on it
(`jsonDoc` for `encoding/json`, `yamlDoc` for `gopkg.in/yaml.v3`).
The JSON branch is `json.Unmarshal(content, &m.data)` with `m.data`
non-nil: per the documented contract of `encoding/json`, unmarshalling an
object into a non-nil map reuses it, keeping existing entries, so the
decoded top-level keys are folded into the prior tree.  The YAML branch
adopts a string-keyed decode as-is, runs a foreign-keyed decode through
`transformMapKeys`, and rejects any other top-level shape.  On success
the format tag is stored; on any error the manager is returned unchanged
(a failed `json.Unmarshal` may leave partial writes in Go; no claim
exercises that path and it is not modelled). -/
def Manager.Load (m : Manager) (tag : String)
    (jsonDoc : Except String GoMap) (yamlDoc : Except String GoVal) :
    Except GoErr Unit × Manager :=
  if tag = "json" then
    match jsonDoc with
    | .error e => (.error (.parse e), m)
    | .ok doc => (.ok (), { m with data := insFold m.data doc, fileFormat := tag })
  else if tag = "yaml" ∨ tag = "yml" then
    match yamlDoc with
    | .error e => (.error (.parse e), m)
    | .ok (.vStrMap doc) => (.ok (), { m with data := doc, fileFormat := tag })
    | .ok (.vIfaceMap l) =>
        match transformMapKeys (.vIfaceMap l) with
        | .vStrMap doc => (.ok (), { m with data := doc, fileFormat := tag })
        | _ => (.error (.parse "failed to convert YAML data"), m)
    | .ok _ => (.error (.parse "unexpected YAML structure"), m)
  else (.error (.badFormat tag), m)

/-! ## Claim C3 -/

/-- C3: on the tree `{"a": {"b": 1}}`, `Get "A.B"` and `Get "a.b"` return
the same value (namely `1`) when case sensitivity is disabled; with case
sensitivity enabled the two calls differ: `Get "a.b"` succeeds and
`Get "A.B"` fails with a not-found error. -/
theorem claim3_case_sensitivity :
    (Manager.Get ⟨[("a", .vStrMap [("b", .vInt 1)])], "", false⟩ "A.B"
       = Manager.Get ⟨[("a", .vStrMap [("b", .vInt 1)])], "", false⟩ "a.b"
     ∧ Manager.Get ⟨[("a", .vStrMap [("b", .vInt 1)])], "", false⟩ "A.B"
       = .ok (.vInt 1))
  ∧ (Manager.Get ⟨[("a", .vStrMap [("b", .vInt 1)])], "", true⟩ "a.b"
       = .ok (.vInt 1)
     ∧ Manager.Get ⟨[("a", .vStrMap [("b", .vInt 1)])], "", true⟩ "A.B"
       = .error (.notFound "A")
     ∧ Manager.Get ⟨[("a", .vStrMap [("b", .vInt 1)])], "", true⟩ "a.b"
       ≠ Manager.Get ⟨[("a", .vStrMap [("b", .vInt 1)])], "", true⟩ "A.B") := by
  refine ⟨⟨rfl, rfl⟩, rfl, rfl, ?_⟩
  intro hc
  have h2 : (Except.ok (.vInt 1) : Except GoErr GoVal)
      = .error (.notFound "A") := hc
  exact Except.noConfusion h2

/-! ## Claim C10 -/

/-- C10: `Has key` is true exactly when `Get key` returns without error,
for every manager (tree plus case-sensitivity mode) and every key; both
are pure functions of the manager, so neither modifies the tree. -/
theorem claim10_has_iff_get (m : Manager) (key : String) :
    m.Has key = true ↔ ∃ v, m.Get key = .ok v := by
  cases h : m.Get key with
  | ok v => simp [Manager.Has, h]
  | error e => simp [Manager.Has, h]

/-! ## Claim C8 -/

/-- C8: loading with a format tag other than `json`, `yaml`, `yml` fails
with a format error and returns the manager exactly as it was — same tree
and same stored format tag — regardless of what the decoders would have
produced. -/
theorem claim8_unknown_format (m : Manager) (tag : String)
    (jsonDoc : Except String GoMap) (yamlDoc : Except String GoVal)
    (h1 : tag ≠ "json") (h2 : tag ≠ "yaml") (h3 : tag ≠ "yml") :
    m.Load tag jsonDoc yamlDoc = (.error (.badFormat tag), m) := by
  simp [Manager.Load, h1, h2, h3]

/-- Witness for C8 at the concrete tag `toml`. -/
theorem claim8_witness :
    Manager.Load ⟨[("a", .vInt 1)], "yaml", true⟩ "toml"
        (.ok [("b", .vInt 2)]) (.ok .vNull)
      = (.error (.badFormat "toml"), ⟨[("a", .vInt 1)], "yaml", true⟩) :=
  claim8_unknown_format _ "toml" _ _
    (by decide) (by decide) (by decide)

/-! ## Claim C4 -/

/-- C4 (amended): `GetBool` applied to a resolved value returns the
identity on a stored `bool`; `value != 0` for a stored `int` or `float64`
(but *not* for the other numeric kinds `int64`, `int32`, `float32`, which
fall to the conversion error like every non-handled type); and, for a
stored string, true/false according to the ASCII-lowered word sets, a
conversion error otherwise. -/
theorem claim4_amended (m : Manager) (key : String) (v : GoVal)
    (h : m.Get key = .ok v) :
    m.GetBool key =
      match v with
      | .vBool b => .ok b
      | .vInt n => .ok (decide (n ≠ 0))
      | .vFloat64 q => .ok (decide (q ≠ 0))
      | .vStr s =>
          if lowerStr s = "true" ∨ lowerStr s = "1" ∨ lowerStr s = "yes"
              ∨ lowerStr s = "y" ∨ lowerStr s = "on" then .ok true
          else if lowerStr s = "false" ∨ lowerStr s = "0" ∨ lowerStr s = "no"
              ∨ lowerStr s = "n" ∨ lowerStr s = "off" then .ok false
          else .error (.conv key "bool")
      | _ => .error (.conv key "bool") := by
  simp only [Manager.GetBool, h]
  cases v <;> rfl

/-- Witness for C4 (amended): the stored string `"YES"` resolves and
coerces to `true`; the stored string `"maybe"` fails with a conversion
error; a stored `int` `0` coerces to `false`. -/
theorem claim4_witness :
    (Manager.Get ⟨[("k", .vStr "YES")], "", true⟩ "k" = .ok (.vStr "YES")
      ∧ Manager.GetBool ⟨[("k", .vStr "YES")], "", true⟩ "k" = .ok true)
  ∧ (Manager.Get ⟨[("k", .vStr "maybe")], "", true⟩ "k" = .ok (.vStr "maybe")
      ∧ Manager.GetBool ⟨[("k", .vStr "maybe")], "", true⟩ "k"
          = .error (.conv "k" "bool"))
  ∧ (Manager.Get ⟨[("k", .vInt 0)], "", true⟩ "k" = .ok (.vInt 0)
      ∧ Manager.GetBool ⟨[("k", .vInt 0)], "", true⟩ "k" = .ok false) :=
  ⟨⟨rfl, claim4_amended ⟨[("k", .vStr "YES")], "", true⟩ "k" (.vStr "YES") rfl⟩,
   ⟨rfl, claim4_amended ⟨[("k", .vStr "maybe")], "", true⟩ "k" (.vStr "maybe") rfl⟩,
   ⟨rfl, claim4_amended ⟨[("k", .vInt 0)], "", true⟩ "k" (.vInt 0) rfl⟩⟩

/-- C4 counterexample: a stored `int64` value `1` is a stored numeric
value, yet `GetBool` fails with a conversion error instead of returning
`true` (Go's type switch has cases for `int` and `float64` only). -/
theorem claim4_counterexample :
    Manager.GetBool ⟨[("k", .vInt64 1)], "", true⟩ "k"
        = .error (.conv "k" "bool")
  ∧ Manager.GetBool ⟨[("k", .vInt64 1)], "", true⟩ "k" ≠ .ok true := by
  refine ⟨rfl, ?_⟩
  intro hc
  have h2 : (Except.error (GoErr.conv "k" "bool") : Except GoErr Bool)
      = .ok true := hc
  exact Except.noConfusion h2

/-! ## Claim C5 -/

/-- C5 (amended): a successful YAML load replaces the tree wholesale with
the decoded document (taken as-is when the decoder yields a string-keyed
mapping, run through `transformMapKeys` when it yields a foreign-keyed
one); a successful JSON load instead *merges* the decoded document's
top-level keys into the existing tree (`json.Unmarshal` reuses a non-nil
map, keeping existing entries), so keys absent from the document survive
from the pre-load contents.  In both cases the format tag is stored. -/
theorem claim5_amended :
    (∀ (m : Manager) (doc : GoMap) (y : Except String GoVal),
        m.Load "json" (.ok doc) y
          = (.ok (), { m with data := insFold m.data doc, fileFormat := "json" }))
  ∧ (∀ (m : Manager) (doc : GoMap) (j : Except String GoMap) (tag : String),
        tag = "yaml" ∨ tag = "yml" →
        m.Load tag j (.ok (.vStrMap doc))
          = (.ok (), { m with data := doc, fileFormat := tag }))
  ∧ (∀ (m : Manager) (l : List (GoVal × GoVal)) (j : Except String GoMap)
        (tag : String),
        tag = "yaml" ∨ tag = "yml" →
        m.Load tag j (.ok (.vIfaceMap l))
          = (.ok (), { m with data := insFold [] (tmkPairs l), fileFormat := tag })) := by
  refine ⟨fun m doc y => by simp [Manager.Load], fun m doc j tag ht => ?_,
    fun m l j tag ht => ?_⟩
  · rcases ht with h | h <;> subst h <;> simp [Manager.Load]
  · rcases ht with h | h <;> subst h <;> simp [Manager.Load, transformMapKeys]

/-- Witness for C5 (amended), exercising the JSON-merge branch and the
YAML-replace branch at concrete inputs. -/
theorem claim5_witness :
    Manager.Load ⟨[("old", .vInt 1)], "", true⟩ "json"
        (.ok [("new", .vInt 2)]) (.error "unused")
      = (.ok (), ⟨[("old", .vInt 1), ("new", .vInt 2)], "json", true⟩)
  ∧ Manager.Load ⟨[("old", .vInt 1)], "", true⟩ "yaml"
        (.error "unused") (.ok (.vStrMap [("new", .vInt 2)]))
      = (.ok (), ⟨[("new", .vInt 2)], "yaml", true⟩) := by
  constructor
  · exact (claim5_amended.1 ⟨[("old", .vInt 1)], "", true⟩
      [("new", .vInt 2)] (.error "unused")).trans rfl
  · exact (claim5_amended.2.1 ⟨[("old", .vInt 1)], "", true⟩
      [("new", .vInt 2)] (.error "unused") "yaml" (Or.inl rfl)).trans rfl

/-- C5 counterexample: a successful JSON load onto a tree holding
`{"old": 1}` with the document `{"new": 2}` succeeds but the pre-load key
`"old"` survives — the tree is not replaced wholesale by the decoded
document. -/
theorem claim5_counterexample :
    (Manager.Load ⟨[("old", .vInt 1)], "", true⟩ "json"
        (.ok [("new", .vInt 2)]) (.error "unused")).1 = .ok ()
  ∧ lookupGo (Manager.Load ⟨[("old", .vInt 1)], "", true⟩ "json"
        (.ok [("new", .vInt 2)]) (.error "unused")).2.data "old"
      = some (.vInt 1)
  ∧ (Manager.Load ⟨[("old", .vInt 1)], "", true⟩ "json"
        (.ok [("new", .vInt 2)]) (.error "unused")).2.data
      ≠ [("new", .vInt 2)] := by
  refine ⟨rfl, rfl, ?_⟩
  intro hc
  have h2 : ([("old", GoVal.vInt 1), ("new", GoVal.vInt 2)] : GoMap)
      = [("new", .vInt 2)] := hc
  simp at h2

/-! ## Claim C6 -/

theorem lookupGo_eq_none_of_not_mem (l : GoMap) (k : String)
    (h : k ∉ l.map Prod.fst) : lookupGo l k = none := by
  induction l with
  | nil => rfl
  | cons p rest ih =>
      obtain ⟨k', v'⟩ := p
      simp only [List.map_cons, List.mem_cons] at h
      push_neg at h
      have h' : ¬k' = k := fun hh => h.1 hh.symm
      simp [lookupGo, h', ih h.2]

theorem mergeStep_lookup_self (a : GoMap) (k : String) (v : GoVal) :
    lookupGo (mergeStep a k v) k =
      match lookupGo a k, v with
      | some (.vStrMap ea), .vStrMap nb => some (.vStrMap (insFold ea nb))
      | _, _ => some v := by
  unfold mergeStep
  cases ha : lookupGo a k with
  | none => cases v <;> simp [lookupGo_insert_self]
  | some w => cases w <;> cases v <;> simp [lookupGo_insert_self]

theorem mergeStep_lookup_ne (a : GoMap) (k k' : String) (v : GoVal)
    (h : k' ≠ k) : lookupGo (mergeStep a k v) k' = lookupGo a k' := by
  unfold mergeStep
  cases ha : lookupGo a k with
  | none => cases v <;> simp [lookupGo_insert_ne _ _ _ _ h]
  | some w => cases w <;> cases v <;> simp [lookupGo_insert_ne _ _ _ _ h]

/-- C6: `MergeMap` processes each top-level key of the incoming tree:
when the existing tree holds a string-keyed mapping at that key and the
incoming value is also a (string-keyed) mapping, the submaps merge one
level deep (incoming entries overwrite or add, no deeper recursion);
otherwise the incoming value replaces or adds wholesale.  The two
spec examples are instances. -/
theorem claim6_merge_one_level :
    (∀ (a b : GoMap), (b.map Prod.fst).Nodup → ∀ k,
        lookupGo (mergeData a b) k =
          match lookupGo b k with
          | none => lookupGo a k
          | some v =>
              match lookupGo a k, v with
              | some (.vStrMap ea), .vStrMap nb =>
                  some (.vStrMap (insFold ea nb))
              | _, _ => some v)
  ∧ (Manager.MergeMap ⟨[("a", .vStrMap [("x", .vInt 1)])], "", true⟩
        [("a", .vStrMap [("y", .vInt 2)])]).data
      = [("a", .vStrMap [("x", .vInt 1), ("y", .vInt 2)])]
  ∧ (Manager.MergeMap ⟨[("a", .vInt 1)], "", true⟩
        [("a", .vStrMap [("y", .vInt 2)])]).data
      = [("a", .vStrMap [("y", .vInt 2)])] := by
  refine ⟨?_, rfl, rfl⟩
  intro a b hb
  induction b generalizing a with
  | nil => intro k; rfl
  | cons p rest ih =>
      obtain ⟨k₀, v₀⟩ := p
      simp only [List.map_cons, List.nodup_cons] at hb
      intro k
      have hstep : mergeData a ((k₀, v₀) :: rest)
          = mergeData (mergeStep a k₀ v₀) rest := rfl
      rw [hstep, ih (mergeStep a k₀ v₀) hb.2 k]
      by_cases hk : k = k₀
      · subst hk
        have hrest : lookupGo rest k = none :=
          lookupGo_eq_none_of_not_mem rest k hb.1
        simp only [hrest, lookupGo, if_pos rfl]
        exact mergeStep_lookup_self a k v₀
      · have hk' : ¬k₀ = k := fun hh => hk hh.symm
        have hbk : lookupGo ((k₀, v₀) :: rest) k = lookupGo rest k := by
          simp [lookupGo, hk']
        rw [hbk, mergeStep_lookup_ne a k₀ k v₀ hk]

/-- Witness for C6 at the spec's first example. -/
theorem claim6_witness :
    (([("a", GoVal.vStrMap [("y", GoVal.vInt 2)])].map Prod.fst).Nodup)
  ∧ lookupGo (mergeData [("a", .vStrMap [("x", .vInt 1)])]
        [("a", .vStrMap [("y", .vInt 2)])]) "a"
      = some (.vStrMap [("x", .vInt 1), ("y", .vInt 2)]) :=
  ⟨by decide,
    claim6_merge_one_level.1 [("a", .vStrMap [("x", .vInt 1)])]
      [("a", .vStrMap [("y", .vInt 2)])] (by decide) "a"⟩

/-! ## Claim C2 -/

theorem strictConvAux_isSome_of_all_str (l : List (GoVal × GoVal))
    (hs : ∀ p ∈ l, ∃ s, p.1 = .vStr s) (acc : GoMap) :
    (strictConvAux acc l).isSome := by
  induction l generalizing acc with
  | nil => simp [strictConvAux]
  | cons p rest ih =>
      obtain ⟨k, v⟩ := p
      obtain ⟨s, hks⟩ := hs (k, v) (List.mem_cons_self _ _)
      subst hks
      exact ih (fun q hq => hs q (List.mem_cons_of_mem _ hq)) (insertGo acc s v)

theorem strictConvAux_none_of_bad (l : List (GoVal × GoVal))
    (hbad : ∃ p ∈ l, ∀ s, p.1 ≠ .vStr s) (acc : GoMap) :
    strictConvAux acc l = none := by
  induction l generalizing acc with
  | nil => simp at hbad
  | cons p rest ih =>
      obtain ⟨k, v⟩ := p
      obtain ⟨q, hq, hqs⟩ := hbad
      rcases List.mem_cons.mp hq with hh | hh
      · subst hh
        cases hk : k with
        | vStr s => exact absurd hk (hqs s)
        | vNull => simp [strictConvAux]
        | vBool b => simp [strictConvAux]
        | vInt n => simp [strictConvAux]
        | vInt64 n => simp [strictConvAux]
        | vInt32 n => simp [strictConvAux]
        | vFloat64 q' => simp [strictConvAux]
        | vFloat32 q' => simp [strictConvAux]
        | vBytes bs => simp [strictConvAux]
        | vStrSlice sl => simp [strictConvAux]
        | vArr la => simp [strictConvAux]
        | vStrMap lm => simp [strictConvAux]
        | vIfaceMap li => simp [strictConvAux]
      · cases k with
        | vStr s => exact ih ⟨q, hh, hqs⟩ (insertGo acc s v)
        | vNull => rfl
        | vBool b => rfl
        | vInt n => rfl
        | vInt64 n => rfl
        | vInt32 n => rfl
        | vFloat64 q' => rfl
        | vFloat32 q' => rfl
        | vBytes bs => rfl
        | vStrSlice sl => rfl
        | vArr la => rfl
        | vStrMap lm => rfl
        | vIfaceMap li => rfl

/-- The one-step reduction of the case-sensitive `getNestedMap` walk. -/
theorem walkSegs_cons_true (data : GoMap) (k : String) (rest : List String) :
    walkSegs data (k :: rest) true
      = match lookupGo data k with
        | none => .error (.notFound k)
        | some (.vStrMap nested) => walkSegs nested rest true
        | some (.vIfaceMap l) =>
            match strictConv l with
            | some nested => walkSegs nested rest true
            | none => .error (.keyNotString k)
        | some _ => .error (.notAMapping k) := by
  simp [walkSegs]

/-- C2 (amended): when `getNestedMap`'s walk (used by `Get`/`Has`/`Delete`)
meets a foreign-keyed mapping at a non-final segment, it continues into it
as a nested mapping only when every key is already (dynamically) a string
— keys are taken as-is, never `%v`-stringified — and it *fails* with a
"key is not a string" error as soon as some key is not a string.  Only
`Manager.Set`'s walk converts such a mapping by `%v` stringification and
continues unconditionally.  (Stated in case-sensitive mode; the
case-insensitive walk differs only in the fold-matching of the segment.) -/
theorem claim2_amended :
    (∀ (data : GoMap) (k : String) (l : List (GoVal × GoVal))
        (rest : List String),
        lookupGo data k = some (.vIfaceMap l) →
        (∀ p ∈ l, ∃ s, p.1 = .vStr s) →
        walkSegs data (k :: rest) true
          = walkSegs ((strictConv l).getD []) rest true)
  ∧ (∀ (data : GoMap) (k : String) (l : List (GoVal × GoVal))
        (rest : List String),
        lookupGo data k = some (.vIfaceMap l) →
        (∃ p ∈ l, ∀ s, p.1 ≠ .vStr s) →
        walkSegs data (k :: rest) true = .error (.keyNotString k))
  ∧ (∀ (data : GoMap) (k : String) (l : List (GoVal × GoVal))
        (k2 : String) (rest : List String) (v : GoVal),
        lookupGo data k = some (.vIfaceMap l) →
        setSegs data (k :: k2 :: rest) v
          = insertGo data k
              (.vStrMap (setSegs (ifaceToStrV l) (k2 :: rest) v))) := by
  refine ⟨?_, ?_, ?_⟩
  · intro data k l rest hm hs
    have hsome := strictConvAux_isSome_of_all_str l hs []
    rw [walkSegs_cons_true, hm]
    cases hconv : strictConv l with
    | some nm => simp [hconv]
    | none =>
        have hcv : strictConvAux [] l = none := hconv
        rw [hcv] at hsome
        simp at hsome
  · intro data k l rest hm hbad
    have hnone : strictConv l = none := strictConvAux_none_of_bad l hbad []
    rw [walkSegs_cons_true, hm]
    simp [hnone]
  · intro data k l k2 rest v hm
    simp only [setSegs, hm]

/-- Witness for C2 (amended): an all-string-keyed foreign mapping under
`"a"` is walked through, and `Set` converts the same mapping and
continues. -/
theorem claim2_witness :
    walkSegs [("a", .vIfaceMap [(.vStr "b", .vInt 1)])] ["a"] true
      = walkSegs ((strictConv [(.vStr "b", .vInt 1)]).getD []) [] true
  ∧ setSegs [("a", .vIfaceMap [(.vStr "b", .vInt 1)])] ["a", "c"] (.vInt 9)
      = insertGo [("a", .vIfaceMap [(.vStr "b", .vInt 1)])] "a"
          (.vStrMap (setSegs (ifaceToStrV [(.vStr "b", .vInt 1)]) ["c"] (.vInt 9))) :=
  ⟨claim2_amended.1 [("a", .vIfaceMap [(.vStr "b", .vInt 1)])] "a"
      [(.vStr "b", .vInt 1)] [] rfl
      (by
        intro p hp
        rw [List.mem_singleton] at hp
        subst hp
        exact ⟨"b", rfl⟩),
    claim2_amended.2.2 [("a", .vIfaceMap [(.vStr "b", .vInt 1)])] "a"
      [(.vStr "b", .vInt 1)] "c" [] (.vInt 9) rfl⟩

/-- C2 counterexample: on the tree `{"a": map[1: 7]}` (integer key), the
resolution of `"a.1"` fails with a "key is not a string" error — it does
not stringify the key and continue (which would have produced `7`). -/
theorem claim2_counterexample :
    Manager.Get ⟨[("a", .vIfaceMap [(.vInt 1, .vInt 7)])], "", true⟩ "a.1"
      = .error (.keyNotString "a")
  ∧ Manager.Get ⟨[("a", .vIfaceMap [(.vInt 1, .vInt 7)])], "", true⟩ "a.1"
      ≠ .ok (.vInt 7) := by
  refine ⟨rfl, ?_⟩
  intro hc
  have h2 : (Except.error (GoErr.keyNotString "a") : Except GoErr GoVal)
      = .ok (.vInt 7) := hc
  exact Except.noConfusion h2

/-! ## Claim C1 -/

theorem getLastD_cons_cons (k k2 : String) (rs : List String) (d : String) :
    ((k :: k2 :: rs).getLastD d) = ((k2 :: rs).getLastD d) := by
  have h1 : (k :: k2 :: rs).getLastD d = (k2 :: rs).getLastD k :=
    List.getLastD_cons _ _ _
  have h2 : (k2 :: rs).getLastD k = rs.getLastD k2 := List.getLastD_cons _ _ _
  have h3 : (k2 :: rs).getLastD d = rs.getLastD k2 := List.getLastD_cons _ _ _
  rw [h1, h2, h3]

/-- Descending one string-keyed step commutes with the rest of the
case-sensitive resolution. -/
theorem getNestedSegs_step (data M : GoMap) (k : String) (keys : List String)
    (hne : keys ≠ []) (hl : lookupGo data k = some (.vStrMap M)) :
    getNestedSegs data (k :: keys) true = getNestedSegs M keys true := by
  cases keys with
  | nil => exact absurd rfl hne
  | cons k2 rest =>
      have hw : walkSegs data (k :: (k2 :: rest).dropLast) true
          = walkSegs M ((k2 :: rest).dropLast) true := by
        rw [walkSegs_cons_true, hl]
      cases rest with
      | nil =>
          simp only [getNestedSegs, List.dropLast, hw]
          have hw0 : walkSegs data [k] true = .ok M := by
            rw [walkSegs_cons_true, hl]; rfl
          rw [hw0]
          rfl
      | cons r rs =>
          simp only [getNestedSegs]
          have hd : (k :: k2 :: r :: rs).dropLast
              = k :: (k2 :: r :: rs).dropLast := rfl
          rw [hd, hw, getLastD_cons_cons]

/-- After `setSegs` writes a value along a non-empty segment list, the
case-sensitive resolution of those segments lands on a parent holding
exactly that value under the final segment. -/
theorem setThenGet_segs (keys : List String) :
    ∀ (data : GoMap) (v : GoVal), keys ≠ [] →
    ∃ p, getNestedSegs (setSegs data keys v) keys true
          = .ok (p, keys.getLastD "")
      ∧ lookupGo p (keys.getLastD "") = some v := by
  induction keys with
  | nil => intro data v h; exact absurd rfl h
  | cons k rest ih =>
      intro data v _
      cases rest with
      | nil =>
          exact ⟨insertGo data k v, rfl, lookupGo_insert_self data k v⟩
      | cons k2 rs =>
          have hset : ∃ inner, setSegs data (k :: k2 :: rs) v
              = insertGo data k (.vStrMap (setSegs inner (k2 :: rs) v)) := by
            cases hl : lookupGo data k with
            | none => exact ⟨[], by simp only [setSegs, hl]⟩
            | some w =>
                cases w with
                | vStrMap im => exact ⟨im, by simp only [setSegs, hl]⟩
                | vIfaceMap l => exact ⟨ifaceToStrV l, by simp only [setSegs, hl]⟩
                | vNull => exact ⟨[], by simp only [setSegs, hl]⟩
                | vStr s => exact ⟨[], by simp only [setSegs, hl]⟩
                | vBool b => exact ⟨[], by simp only [setSegs, hl]⟩
                | vInt n => exact ⟨[], by simp only [setSegs, hl]⟩
                | vInt64 n => exact ⟨[], by simp only [setSegs, hl]⟩
                | vInt32 n => exact ⟨[], by simp only [setSegs, hl]⟩
                | vFloat64 q => exact ⟨[], by simp only [setSegs, hl]⟩
                | vFloat32 q => exact ⟨[], by simp only [setSegs, hl]⟩
                | vBytes bs => exact ⟨[], by simp only [setSegs, hl]⟩
                | vStrSlice sl => exact ⟨[], by simp only [setSegs, hl]⟩
                | vArr la => exact ⟨[], by simp only [setSegs, hl]⟩
          obtain ⟨inner, hset⟩ := hset
          obtain ⟨p, hg, hlk⟩ := ih inner v (by simp)
          refine ⟨p, ?_, ?_⟩
          · rw [hset,
              getNestedSegs_step _ (setSegs inner (k2 :: rs) v) k (k2 :: rs)
                (by simp) (lookupGo_insert_self data k _),
              hg, getLastD_cons_cons]
          · rw [getLastD_cons_cons]
            exact hlk

/-- C1 (amended): in case-sensitive mode the leaf-write round-trip holds
unconditionally: for every tree, every non-empty dot-separated path
(whether or not it resolved before) and *every* value `v` (foreign-keyed
mappings included — `Get` returns the stored value itself), `Set(p, v)`
succeeds and an immediate `Get(p)` returns exactly `v`.  In
case-insensitive mode the round-trip can fail when the tree holds distinct
keys that are equal up to case folding, because `Set` writes
case-sensitively while `Get` may match a different key (see the
counterexample); the claim's "both modes" part is therefore amended to
case-sensitive mode. -/
theorem claim1_amended (m : Manager) (key : String) (v : GoVal)
    (hk : key ≠ "") (hcs : m.caseSensitive = true) :
    m.Set key v = .ok { m with data := setSegs m.data (splitDot key) v }
  ∧ ({ m with data := setSegs m.data (splitDot key) v } : Manager).Get key
      = .ok v := by
  constructor
  · simp [Manager.Set, hk]
  · obtain ⟨p, hg, hlk⟩ :=
      setThenGet_segs (splitDot key) m.data v (splitDot_ne_nil key)
    simp only [Manager.Get, hk, if_neg hk, getNestedMapGo]
    rw [show ({ m with data := setSegs m.data (splitDot key) v } : Manager).caseSensitive
          = true from hcs,
      hg]
    rw [List.getLastD_eq_getLast?] at hlk
    simp [refoldKey, hlk]

/-- Witness for C1 (amended): writing `"x"` at `"a.b.c"` over a scalar in
the way creates the intermediate maps and reads back exactly `"x"`. -/
theorem claim1_witness :
    Manager.Set ⟨[("a", .vInt 5)], "", true⟩ "a.b.c" (.vStr "x")
      = .ok { (⟨[("a", .vInt 5)], "", true⟩ : Manager) with
              data := setSegs [("a", .vInt 5)] (splitDot "a.b.c") (.vStr "x") }
  ∧ ({ (⟨[("a", .vInt 5)], "", true⟩ : Manager) with
        data := setSegs [("a", .vInt 5)] (splitDot "a.b.c") (.vStr "x") } : Manager).Get
        "a.b.c"
      = .ok (.vStr "x") :=
  claim1_amended ⟨[("a", .vInt 5)], "", true⟩ "a.b.c" (.vStr "x")
    (by decide) rfl

/-- C1 counterexample (case-insensitive mode): on the tree
`{"A": 1, "a": 2}` the path `"a"` resolves successfully, the written value
is a plain string, yet `Set("a", "x")` followed by `Get("a")` returns the
other key's value `1` — `Set` writes case-sensitively while `Get`
fold-matches the first key, here `"A"`. -/
theorem claim1_counterexample :
    Manager.Get ⟨[("A", .vInt 1), ("a", .vInt 2)], "", false⟩ "a" = .ok (.vInt 1)
  ∧ Manager.Set ⟨[("A", .vInt 1), ("a", .vInt 2)], "", false⟩ "a" (.vStr "x")
      = .ok ⟨[("A", .vInt 1), ("a", .vStr "x")], "", false⟩
  ∧ Manager.Get ⟨[("A", .vInt 1), ("a", .vStr "x")], "", false⟩ "a" = .ok (.vInt 1)
  ∧ Manager.Get ⟨[("A", .vInt 1), ("a", .vStr "x")], "", false⟩ "a"
      ≠ .ok (.vStr "x") := by
  refine ⟨rfl, rfl, rfl, ?_⟩
  intro hc
  have h2 : (Except.ok (GoVal.vInt 1) : Except GoErr GoVal)
      = .ok (.vStr "x") := hc
  simp at h2

/-! ## Claim C7 -/

/-- A purely string-keyed descent: the map reached from `m` by following
`segs` through `vStrMap` nodes only (no foreign-keyed conversion). -/
def strWalk : GoMap → List String → Option GoMap
  | m, [] => some m
  | m, k :: rest =>
      match lookupGo m k with
      | some (.vStrMap inner) => strWalk inner rest
      | _ => none

/-- Replacing the map at the end of a purely string-keyed descent,
leaving every other entry of every map on the way unchanged. -/
def strRebuild : GoMap → List String → GoMap → GoMap
  | _, [], newEnd => newEnd
  | m, k :: rest, newEnd =>
      match lookupGo m k with
      | some (.vStrMap inner) =>
          insertGo m k (.vStrMap (strRebuild inner rest newEnd))
      | _ => m

/-- Inversion of a successful string-keyed descent step. -/
theorem strWalk_cons_inv (data : GoMap) (k : String) (pre' : List String)
    (parent : GoMap) (h : strWalk data (k :: pre') = some parent) :
    ∃ inner, lookupGo data k = some (.vStrMap inner)
      ∧ strWalk inner pre' = some parent := by
  rw [strWalk] at h
  cases hl : lookupGo data k with
  | none => rw [hl] at h; exact Option.noConfusion h
  | some w =>
      rw [hl] at h
      cases w <;>
        first
          | exact Option.noConfusion h
          | exact ⟨_, rfl, h⟩

/-- Unfolding a string-keyed `strRebuild` step. -/
theorem strRebuild_cons_strMap (data inner newEnd : GoMap) (k : String)
    (pre' : List String) (hl : lookupGo data k = some (.vStrMap inner)) :
    strRebuild data (k :: pre') newEnd
      = insertGo data k (.vStrMap (strRebuild inner pre' newEnd)) := by
  rw [strRebuild, hl]

theorem walkSegs_of_strWalk (pre : List String) :
    ∀ (data parent : GoMap), strWalk data pre = some parent →
    walkSegs data pre true = .ok parent := by
  induction pre with
  | nil =>
      intro data parent h
      simp only [strWalk] at h
      rw [walkSegs]
      exact congrArg Except.ok (Option.some.inj h)
  | cons k rest ih =>
      intro data parent h
      obtain ⟨inner, hl, h'⟩ := strWalk_cons_inv data k rest parent h
      rw [walkSegs_cons_true, hl]
      exact ih inner parent h'

/-- The one-step reduction of the case-sensitive `Delete` walk. -/
theorem delWalk_cons_true (data : GoMap) (k k2 : String) (rest : List String) :
    delWalk data (k :: k2 :: rest) true
      = match lookupGo data k with
        | none => .error (.notFound k)
        | some (.vStrMap inner) =>
            match delWalk inner (k2 :: rest) true with
            | .error e => .error e
            | .ok inner' => .ok (insertGo data k (.vStrMap inner'))
        | some (.vIfaceMap l) =>
            match strictConv l with
            | none => .error (.keyNotString k)
            | some conv =>
                match delWalk conv (k2 :: rest) true with
                | .error e => .error e
                | .ok conv' =>
                    .ok (insertGo data k
                          (.vIfaceMap (writeBackIface l conv')))
        | some _ => .error (.notAMapping k) := by
  simp [delWalk]

/-- Along a purely string-keyed descent, the `Delete` walk reduces to the
final existence check and `eraseGo`, rebuilding only that one path. -/
theorem delWalk_of_strWalk (pre : List String) :
    ∀ (data parent : GoMap), strWalk data pre = some parent →
    ∀ (lastKey : String),
    delWalk data (pre ++ [lastKey]) true
      = match lookupGo parent lastKey with
        | none => .error (.notFound lastKey)
        | some _ => .ok (strRebuild data pre (eraseGo parent lastKey)) := by
  induction pre with
  | nil =>
      intro data parent h lastKey
      simp only [strWalk] at h
      obtain rfl : data = parent := Option.some.inj h
      rw [List.nil_append]
      show delWalk data [lastKey] true = _
      rw [delWalk]
      have hrf : refoldKey data lastKey true = lastKey := rfl
      rw [hrf]
      cases hl : lookupGo data lastKey with
      | none => rfl
      | some w => rfl
  | cons k pre' ih =>
      intro data parent h lastKey
      obtain ⟨inner, hl, h'⟩ := strWalk_cons_inv data k pre' parent h
      have hstep : (k :: pre') ++ [lastKey] = k :: (pre' ++ [lastKey]) := rfl
      rw [hstep]
      cases hp : pre' ++ [lastKey] with
      | nil => exact absurd hp (by simp)
      | cons k2 tl =>
          have hred : delWalk data (k :: k2 :: tl) true
              = match delWalk inner (k2 :: tl) true with
                | .error e => .error e
                | .ok inner' => .ok (insertGo data k (.vStrMap inner')) := by
            rw [delWalk_cons_true, hl]
          rw [hred, ← hp, ih inner parent h' lastKey]
          cases hpar : lookupGo parent lastKey with
          | none => rfl
          | some v =>
              show Except.ok _ = Except.ok _
              rw [strRebuild_cons_strMap data inner _ k pre' hl]

/-- The rebuilt tree walks to the replacement map along the same path. -/
theorem strWalk_strRebuild (pre : List String) :
    ∀ (data parent newEnd : GoMap), strWalk data pre = some parent →
    strWalk (strRebuild data pre newEnd) pre = some newEnd := by
  induction pre with
  | nil => intro data parent newEnd _; rfl
  | cons k pre' ih =>
      intro data parent newEnd h
      obtain ⟨inner, hl, h'⟩ := strWalk_cons_inv data k pre' parent h
      rw [strRebuild_cons_strMap data inner newEnd k pre' hl, strWalk,
        lookupGo_insert_self data k (.vStrMap (strRebuild inner pre' newEnd))]
      exact ih inner parent newEnd h'

/-- Resolution of `pre ++ [lastKey]` in case-sensitive mode is the walk of
`pre` followed by pairing with `lastKey`. -/
theorem getNestedSegs_append_last (data : GoMap) (pre : List String)
    (lastKey : String) :
    getNestedSegs data (pre ++ [lastKey]) true
      = match walkSegs data pre true with
        | .error e => .error e
        | .ok cur => .ok (cur, lastKey) := by
  cases pre with
  | nil => rfl
  | cons p ps =>
      cases hp : ps ++ [lastKey] with
      | nil => exact absurd hp (by simp)
      | cons k2 tl =>
          have hkeys : (p :: ps) ++ [lastKey] = p :: k2 :: tl := by
            rw [List.cons_append, hp]
          rw [hkeys]
          have hd : (p :: k2 :: tl).dropLast = p :: ps := by
            rw [← hkeys, List.dropLast_concat]
          have hlst : (p :: k2 :: tl).getLastD "" = lastKey := by
            rw [← hkeys, List.getLastD_concat]
          rw [getNestedSegs, hd, hlst]
          cases hw : walkSegs data (p :: ps) true with
          | error e => rfl
          | ok cur => rfl

/-- C7 (amended): for every tree, case-sensitive mode, and non-empty path
whose parent is reached through string-keyed mappings only (so the parent
is part of the tree, not a transient conversion of a foreign-keyed
mapping — see the counterexample for why that restriction is necessary):
`Delete` fails with a not-found error when the final key is absent at the
parent; when the key exists, `Delete` replaces the parent by the parent
minus exactly that key (the rest of the tree unchanged), and an immediate
`Get` of the same path fails with a not-found error.  In case-insensitive
mode the same holds unless distinct keys equal up to case folding collide
(the spec itself flags that nondeterminism). -/
theorem claim7_amended (m : Manager) (key : String) (pre : List String)
    (lastKey : String) (parent : GoMap)
    (hk : key ≠ "")
    (hsplit : splitDot key = pre ++ [lastKey])
    (hcs : m.caseSensitive = true)
    (hwalk : strWalk m.data pre = some parent) :
    (lookupGo parent lastKey = none →
        m.Delete key = .error (.notFound lastKey))
  ∧ (∀ v, lookupGo parent lastKey = some v →
        m.Delete key
          = .ok { m with data := strRebuild m.data pre (eraseGo parent lastKey) }
      ∧ ({ m with data := strRebuild m.data pre (eraseGo parent lastKey) } : Manager).Get
            key
          = .error (.notFound key)
      ∧ ∀ k', k' ≠ lastKey →
          lookupGo (eraseGo parent lastKey) k' = lookupGo parent k') := by
  have hdel := delWalk_of_strWalk pre m.data parent hwalk lastKey
  constructor
  · intro hnone
    rw [hnone] at hdel
    simp only [] at hdel
    simp [Manager.Delete, hk, hsplit, hcs, hdel]
  · intro v hsome
    rw [hsome] at hdel
    simp only [] at hdel
    refine ⟨?_, ?_, ?_⟩
    · simp [Manager.Delete, hk, hsplit, hcs, hdel]
    · have hw2 : strWalk (strRebuild m.data pre (eraseGo parent lastKey)) pre
          = some (eraseGo parent lastKey) :=
        strWalk_strRebuild pre m.data parent (eraseGo parent lastKey) hwalk
      have hws : walkSegs (strRebuild m.data pre (eraseGo parent lastKey)) pre true
          = .ok (eraseGo parent lastKey) :=
        walkSegs_of_strWalk pre _ _ hw2
      simp only [Manager.Get, if_neg hk, getNestedMapGo, hcs, hsplit,
        getNestedSegs_append_last, hws]
      have hrf : refoldKey (eraseGo parent lastKey) lastKey true = lastKey := rfl
      rw [hrf, lookupGo_erase_self]
    · intro k' hne
      exact lookupGo_erase_ne parent lastKey k' hne

/-- Witness for C7 (amended) on the tree `{"a": {"b": 1, "c": 2}}` at path
`"a.b"` (present key). -/
theorem claim7_witness :
    Manager.Delete ⟨[("a", .vStrMap [("b", .vInt 1), ("c", .vInt 2)])], "", true⟩
        "a.b"
      = .ok { (⟨[("a", .vStrMap [("b", .vInt 1), ("c", .vInt 2)])], "", true⟩ : Manager)
              with data := (strRebuild [("a", .vStrMap [("b", .vInt 1), ("c", .vInt 2)])]
                  ["a"] (eraseGo [("b", .vInt 1), ("c", .vInt 2)] "b")) }
  ∧ ({ (⟨[("a", .vStrMap [("b", .vInt 1), ("c", .vInt 2)])], "", true⟩ : Manager)
        with data := (strRebuild [("a", .vStrMap [("b", .vInt 1), ("c", .vInt 2)])]
            ["a"] (eraseGo [("b", .vInt 1), ("c", .vInt 2)] "b")) } : Manager).Get "a.b"
      = .error (.notFound "a.b") :=
  ⟨((claim7_amended ⟨[("a", .vStrMap [("b", .vInt 1), ("c", .vInt 2)])], "", true⟩
      "a.b" ["a"] "b" [("b", .vInt 1), ("c", .vInt 2)]
      (by decide) rfl rfl rfl).2 (.vInt 1) rfl).1,
   ((claim7_amended ⟨[("a", .vStrMap [("b", .vInt 1), ("c", .vInt 2)])], "", true⟩
      "a.b" ["a"] "b" [("b", .vInt 1), ("c", .vInt 2)]
      (by decide) rfl rfl rfl).2 (.vInt 1) rfl).2.1⟩

/-- C7 counterexample: on the tree `{"a": map["b": 1]}` whose submap is a
foreign-keyed mapping (string-typed keys), the resolved parent is the
transient conversion, so `Delete "a.b"` reports success while leaving the
tree identical, and an immediate `Get "a.b"` still returns `1` instead of
failing with a not-found error. -/
theorem claim7_counterexample :
    Manager.Delete ⟨[("a", .vIfaceMap [(.vStr "b", .vInt 1)])], "", true⟩ "a.b"
      = .ok ⟨[("a", .vIfaceMap [(.vStr "b", .vInt 1)])], "", true⟩
  ∧ Manager.Get ⟨[("a", .vIfaceMap [(.vStr "b", .vInt 1)])], "", true⟩ "a.b"
      = .ok (.vInt 1) :=
  ⟨rfl, rfl⟩

/-! ## Claim C9 -/

/-- Canonical (normalized) values: every mapping node is string-keyed with
duplicate-free keys and canonical entries, sequences have canonical
elements, and no foreign-keyed mapping occurs anywhere.  This is the shape
`transformMapKeys` always produces. -/
inductive Canon : GoVal → Prop where
  | null : Canon .vNull
  | str (s : String) : Canon (.vStr s)
  | bool (b : Bool) : Canon (.vBool b)
  | int (n : Int) : Canon (.vInt n)
  | int64 (n : Int) : Canon (.vInt64 n)
  | int32 (n : Int) : Canon (.vInt32 n)
  | float64 (q : Rat) : Canon (.vFloat64 q)
  | float32 (q : Rat) : Canon (.vFloat32 q)
  | bytes (bs : List Nat) : Canon (.vBytes bs)
  | strSlice (l : List String) : Canon (.vStrSlice l)
  | arr (l : List GoVal) (h : ∀ x ∈ l, Canon x) : Canon (.vArr l)
  | strMap (l : GoMap) (hk : (l.map Prod.fst).Nodup)
      (hv : ∀ p ∈ l, Canon p.2) : Canon (.vStrMap l)

theorem mem_insertGo (m : GoMap) (k : String) (v : GoVal) (p : String × GoVal) :
    p ∈ insertGo m k v → p ∈ m ∨ p = (k, v) := by
  induction m with
  | nil =>
      intro h
      simp only [insertGo, List.mem_singleton] at h
      exact Or.inr h
  | cons q rest ih =>
      obtain ⟨k', v'⟩ := q
      intro h
      by_cases hk : k' = k
      · simp only [insertGo, if_pos hk, List.mem_cons] at h
        rcases h with h | h
        · exact Or.inr h
        · exact Or.inl (List.mem_cons_of_mem _ h)
      · simp only [insertGo, if_neg hk, List.mem_cons] at h
        rcases h with h | h
        · exact Or.inl (h ▸ List.mem_cons_self _ _)
        · rcases ih h with h2 | h2
          · exact Or.inl (List.mem_cons_of_mem _ h2)
          · exact Or.inr h2

theorem mem_keys_insertGo (m : GoMap) (k : String) (v : GoVal) (a : String) :
    a ∈ (insertGo m k v).map Prod.fst
      ↔ a ∈ m.map Prod.fst ∨ a = k := by
  induction m with
  | nil => simp [insertGo]
  | cons q rest ih =>
      obtain ⟨k', v'⟩ := q
      by_cases hk : k' = k
      · simp only [insertGo, if_pos hk, List.map_cons, List.mem_cons, ih]
        subst hk
        tauto
      · simp only [insertGo, if_neg hk, List.map_cons, List.mem_cons, ih]
        tauto

theorem nodup_keys_insertGo (m : GoMap) (k : String) (v : GoVal) :
    (m.map Prod.fst).Nodup → ((insertGo m k v).map Prod.fst).Nodup := by
  induction m with
  | nil => intro _; simp [insertGo]
  | cons q rest ih =>
      obtain ⟨k', v'⟩ := q
      intro h
      simp only [List.map_cons, List.nodup_cons] at h
      by_cases hk : k' = k
      · subst hk
        simpa [insertGo] using h
      · simp only [insertGo, if_neg hk, List.map_cons, List.nodup_cons]
        refine ⟨?_, ih h.2⟩
        rw [mem_keys_insertGo]
        rintro (hh | hh)
        · exact h.1 hh
        · exact hk hh

theorem nodup_keys_insFold (l : GoMap) :
    ∀ (acc : GoMap), ((acc.map Prod.fst).Nodup) →
    ((insFold acc l).map Prod.fst).Nodup := by
  induction l with
  | nil => intro acc h; exact h
  | cons p rest ih =>
      intro acc h
      obtain ⟨k, v⟩ := p
      exact ih (insertGo acc k v) (nodup_keys_insertGo acc k v h)

theorem mem_insFold (l : GoMap) :
    ∀ (acc : GoMap) (p : String × GoVal), p ∈ insFold acc l →
    p ∈ acc ∨ p ∈ l := by
  induction l with
  | nil => intro acc p h; exact Or.inl h
  | cons q rest ih =>
      intro acc p h
      obtain ⟨k, v⟩ := q
      rcases ih (insertGo acc k v) p h with h2 | h2
      · rcases mem_insertGo acc k v p h2 with h3 | h3
        · exact Or.inl h3
        · exact Or.inr (h3 ▸ List.mem_cons_self _ _)
      · exact Or.inr (List.mem_cons_of_mem _ h2)

theorem insertGo_append_of_not_mem (m : GoMap) (k : String) (v : GoVal)
    (h : k ∉ m.map Prod.fst) : insertGo m k v = m ++ [(k, v)] := by
  induction m with
  | nil => rfl
  | cons q rest ih =>
      obtain ⟨k', v'⟩ := q
      simp only [List.map_cons, List.mem_cons] at h
      push_neg at h
      have hk : ¬k' = k := fun hh => h.1 hh.symm
      simp [insertGo, hk, ih h.2]

theorem insFold_append (l : GoMap) :
    ∀ (acc : GoMap), ((acc ++ l).map Prod.fst).Nodup →
    insFold acc l = acc ++ l := by
  induction l with
  | nil => intro acc _; simp [insFold]
  | cons p rest ih =>
      intro acc h
      obtain ⟨k, v⟩ := p
      have hnotin : k ∉ acc.map Prod.fst := by
        intro hmem
        rw [List.map_append, List.nodup_append] at h
        exact h.2.2 hmem (by simp)
      have hins : insertGo acc k v = acc ++ [(k, v)] :=
        insertGo_append_of_not_mem acc k v hnotin
      have hrec : insFold (acc ++ [(k, v)]) rest = (acc ++ [(k, v)]) ++ rest := by
        apply ih
        have : (acc ++ [(k, v)]) ++ rest = acc ++ ((k, v) :: rest) := by simp
        rw [this]
        exact h
      calc insFold acc ((k, v) :: rest)
      _ = insFold (insertGo acc k v) rest := rfl
      _ = insFold (acc ++ [(k, v)]) rest := by rw [hins]
      _ = (acc ++ [(k, v)]) ++ rest := hrec
      _ = acc ++ ((k, v) :: rest) := by simp

theorem mem_tmkPairs (l : List (GoVal × GoVal)) (p : String × GoVal)
    (h : p ∈ tmkPairs l) :
    ∃ q ∈ l, p = (tmkKey q.1, transformMapKeys q.2) := by
  induction l with
  | nil => simp [tmkPairs] at h
  | cons q rest ih =>
      obtain ⟨k, v⟩ := q
      rw [tmkPairs] at h
      rcases List.mem_cons.mp h with h2 | h2
      · exact ⟨(k, v), List.mem_cons_self _ _, h2⟩
      · obtain ⟨q', hq', hp⟩ := ih h2
        exact ⟨q', List.mem_cons_of_mem _ hq', hp⟩

theorem mem_tmkSPairs (l : GoMap) (p : String × GoVal)
    (h : p ∈ tmkSPairs l) :
    ∃ q ∈ l, p = (q.1, transformMapKeys q.2) := by
  induction l with
  | nil => simp [tmkSPairs] at h
  | cons q rest ih =>
      obtain ⟨k, v⟩ := q
      rw [tmkSPairs] at h
      rcases List.mem_cons.mp h with h2 | h2
      · exact ⟨(k, v), List.mem_cons_self _ _, h2⟩
      · obtain ⟨q', hq', hp⟩ := ih h2
        exact ⟨q', List.mem_cons_of_mem _ hq', hp⟩

theorem tmkList_eq_map (l : List GoVal) :
    tmkList l = l.map transformMapKeys := by
  induction l with
  | nil => rfl
  | cons v rest ih => rw [tmkList, ih, List.map_cons]

theorem mem_tmkList (l : List GoVal) (x : GoVal) (h : x ∈ tmkList l) :
    ∃ y ∈ l, x = transformMapKeys y := by
  rw [tmkList_eq_map] at h
  obtain ⟨y, hy, hx⟩ := List.mem_map.mp h
  exact ⟨y, hy, hx.symm⟩

theorem sizeOf_snd_lt_of_mem_pairs (l : List (GoVal × GoVal))
    (q : GoVal × GoVal) (h : q ∈ l) : sizeOf q.2 < sizeOf l := by
  have h1 := List.sizeOf_lt_of_mem h
  obtain ⟨a, b⟩ := q
  simp only [Prod.mk.sizeOf_spec] at h1
  simp only []
  omega

theorem sizeOf_snd_lt_of_mem_smap (l : GoMap)
    (q : String × GoVal) (h : q ∈ l) : sizeOf q.2 < sizeOf l := by
  have h1 := List.sizeOf_lt_of_mem h
  obtain ⟨a, b⟩ := q
  simp only [Prod.mk.sizeOf_spec] at h1
  simp only []
  omega

theorem canon_transform_sized :
    ∀ (n : Nat) (v : GoVal), sizeOf v ≤ n → Canon (transformMapKeys v) := by
  intro n
  induction n with
  | zero =>
      intro v h
      exfalso
      cases v <;> simp_all
  | succ n ih =>
      intro v h
      cases v with
      | vNull => exact Canon.null
      | vStr s => exact Canon.str s
      | vBool b => exact Canon.bool b
      | vInt m => exact Canon.int m
      | vInt64 m => exact Canon.int64 m
      | vInt32 m => exact Canon.int32 m
      | vFloat64 q => exact Canon.float64 q
      | vFloat32 q => exact Canon.float32 q
      | vBytes bs => exact Canon.bytes bs
      | vStrSlice sl => exact Canon.strSlice sl
      | vArr l =>
          rw [show transformMapKeys (.vArr l) = .vArr (tmkList l) from rfl]
          refine Canon.arr _ ?_
          intro x hx
          obtain ⟨y, hy, hxy⟩ := mem_tmkList l x hx
          subst hxy
          apply ih
          have h1 := List.sizeOf_lt_of_mem hy
          simp only [GoVal.vArr.sizeOf_spec] at h
          omega
      | vStrMap l =>
          rw [show transformMapKeys (.vStrMap l)
                = .vStrMap (insFold [] (tmkSPairs l)) from rfl]
          refine Canon.strMap _ (nodup_keys_insFold _ [] (by simp)) ?_
          intro p hp
          rcases mem_insFold _ [] p hp with h2 | h2
          · simp at h2
          · obtain ⟨q, hq, hpq⟩ := mem_tmkSPairs l p h2
            subst hpq
            apply ih
            have h1 := sizeOf_snd_lt_of_mem_smap l q hq
            simp only [GoVal.vStrMap.sizeOf_spec] at h
            omega
      | vIfaceMap l =>
          rw [show transformMapKeys (.vIfaceMap l)
                = .vStrMap (insFold [] (tmkPairs l)) from rfl]
          refine Canon.strMap _ (nodup_keys_insFold _ [] (by simp)) ?_
          intro p hp
          rcases mem_insFold _ [] p hp with h2 | h2
          · simp at h2
          · obtain ⟨q, hq, hpq⟩ := mem_tmkPairs l p h2
            subst hpq
            apply ih
            have h1 := sizeOf_snd_lt_of_mem_pairs l q hq
            simp only [GoVal.vIfaceMap.sizeOf_spec] at h
            omega

/-- Every output of the normalizer is canonical. -/
theorem canon_transform (v : GoVal) : Canon (transformMapKeys v) :=
  canon_transform_sized (sizeOf v) v (Nat.le_refl _)

theorem tmkList_congr_id (l : List GoVal)
    (h : ∀ x ∈ l, transformMapKeys x = x) : tmkList l = l := by
  induction l with
  | nil => rfl
  | cons v rest ih =>
      rw [tmkList, h v (List.mem_cons_self _ _),
        ih (fun x hx => h x (List.mem_cons_of_mem _ hx))]

theorem tmkSPairs_congr_id (l : GoMap)
    (h : ∀ p ∈ l, transformMapKeys p.2 = p.2) : tmkSPairs l = l := by
  induction l with
  | nil => rfl
  | cons p rest ih =>
      obtain ⟨k, v⟩ := p
      rw [tmkSPairs, h (k, v) (List.mem_cons_self _ _),
        ih (fun q hq => h q (List.mem_cons_of_mem _ hq))]

/-- The normalizer is the identity on canonical values. -/
theorem transform_of_canon (v : GoVal) (h : Canon v) :
    transformMapKeys v = v := by
  induction h with
  | null => rfl
  | str s => rfl
  | bool b => rfl
  | int n => rfl
  | int64 n => rfl
  | int32 n => rfl
  | float64 q => rfl
  | float32 q => rfl
  | bytes bs => rfl
  | strSlice l => rfl
  | arr l hmem ih =>
      rw [show transformMapKeys (.vArr l) = .vArr (tmkList l) from rfl,
        tmkList_congr_id l ih]
  | strMap l hk hv ih =>
      rw [show transformMapKeys (.vStrMap l)
            = .vStrMap (insFold [] (tmkSPairs l)) from rfl,
        tmkSPairs_congr_id l ih]
      rw [insFold_append l [] (by simpa using hk)]
      rfl

/-- C9: the key normalizer `transformMapKeys` is a total function (by
construction), is idempotent on every input, always produces a canonical
value — in particular every mapping node of the result is keyed
exclusively by strings (no foreign-keyed mapping survives) — and
transforms sequences element-wise, preserving element order. -/
theorem claim9_normalizer (x : GoVal) :
    transformMapKeys (transformMapKeys x) = transformMapKeys x
  ∧ Canon (transformMapKeys x)
  ∧ ∀ l, transformMapKeys (.vArr l) = .vArr (l.map transformMapKeys) :=
  ⟨transform_of_canon _ (canon_transform x), canon_transform x,
   fun l => by
    rw [show transformMapKeys (.vArr l) = .vArr (tmkList l) from rfl,
      tmkList_eq_map]⟩

end CfgMgr
